import Mathlib

/-!
Verification of the face-detection loss and architecture code of the
Object_Detection_Projects repository: the RetinaFace-style losses
(`FocalLoss`, `OHEM`, `MultiBoxLoss` in
`projects/04_pytorch_retinaface/layers/loss.py`), the anchor generator
(`layers/anchor.py`), and the MTCNN network shape semantics
(`solutions/solution07/Optimize_MTCNN_PyTorch/nets/modules.py`).

Tensors are shallowly embedded as functions out of `Fin`-indexed types over
`ℝ` (or `ℚ` where the source only does rational arithmetic); elementwise
framework primitives (`sigmoid`, `binary_cross_entropy_with_logits`,
`cross_entropy`, `smooth_l1_loss`) are embedded by their defining formulas,
and reductions (`sum`, `mean`) as `Finset` sums.
-/

open Finset

/-- Embedding of `torch.sigmoid`: `1 / (1 + exp (-x))`. -/
noncomputable def sigmoid (x : ℝ) : ℝ := 1 / (1 + Real.exp (-x))

/-- Per-element `F.binary_cross_entropy_with_logits`:
`-(t * log (sigmoid x) + (1 - t) * log (1 - sigmoid x))`. -/
noncomputable def bceWithLogits (x t : ℝ) : ℝ :=
  -(t * Real.log (sigmoid x) + (1 - t) * Real.log (1 - sigmoid x))

/-- Per-element `F.smooth_l1_loss` (beta = 1): `0.5 * z ^ 2` for `z = |x - y| < 1`,
else `z - 0.5`. -/
noncomputable def smoothL1 (x y : ℝ) : ℝ :=
  if |x - y| < 1 then (1 / 2) * |x - y| ^ 2 else |x - y| - 1 / 2

/-- Per-element `F.cross_entropy` of a logit vector `v : Fin C → ℝ` against an
integer class target `t`: `log (Σ_j exp (v j)) - v t` (the `v t` term written
as a sum so that the definition is total in `t`; when `t < C` it selects the
`t`-th logit, matching the framework's indexing). -/
noncomputable def crossEntropy {C : ℕ} (v : Fin C → ℝ) (t : ℕ) : ℝ :=
  Real.log (∑ j : Fin C, Real.exp (v j)) - ∑ j ∈ univ.filter (fun j : Fin C => (j : ℕ) = t), v j

section SortRank

/-- Rank of index `a` in the descending sort of `L` (ties broken by index, the
deterministic reading of `loss_c.sort(1, descending=True)` followed by ranking
via a second sort in `OHEM.forward`): the number of indices placed strictly
before `a`. -/
noncomputable def sortRank {A : ℕ} (L : Fin A → ℝ) (a : Fin A) : ℕ :=
  #(univ.filter fun c => L c > L a ∨ (L c = L a ∧ c < a))

end SortRank



namespace FocalLoss

/-- Transcription of `FocalLoss.forward` from `layers/loss.py` with
`reduction = 'sum'` (the
default), over an arbitrary finite index set of tensor elements:

```
preds = pred_logits.sigmoid()
ce = F.binary_cross_entropy_with_logits(pred_logits, targets, reduction='sum')
alpha = targets * self.alpha + (1. - targets) * (1. - self.alpha)
pt = torch.where(targets == 1, preds, 1 - preds)
loss = alpha * (1. - pt) ** self.gamma * ce
return loss.mean()
```

Note `ce` is a scalar (the summed BCE), broadcast against the per-element
weights. -/
noncomputable def forward {ι : Type*} [Fintype ι] (alpha : ℝ) (gamma : ℕ)
    (pred_logits targets : ι → ℝ) : ℝ :=
  let preds : ι → ℝ := fun i => sigmoid (pred_logits i)
  let ce : ℝ := ∑ i, bceWithLogits (pred_logits i) (targets i)
  let alphaW : ι → ℝ := fun i => targets i * alpha + (1 - targets i) * (1 - alpha)
  let pt : ι → ℝ := fun i => if targets i = 1 then preds i else 1 - preds i
  let loss : ι → ℝ := fun i => alphaW i * (1 - pt i) ^ gamma * ce
  (∑ i, loss i) / (Fintype.card ι : ℝ)

/-- The focal loss of the cited paper (arXiv:1708.02002), as the spec describes
it: the mean over elements of `alpha_t * (1 - p_t) ^ gamma * ce_t`, with `ce_t`
that element's own binary cross-entropy. Written from the spec's words, to be
compared with `FocalLoss.forward`. -/
noncomputable def specMean {ι : Type*} [Fintype ι] (alpha : ℝ) (gamma : ℕ)
    (pred_logits targets : ι → ℝ) : ℝ :=
  (∑ i, (targets i * alpha + (1 - targets i) * (1 - alpha)) *
      (1 - (if targets i = 1 then sigmoid (pred_logits i) else 1 - sigmoid (pred_logits i))) ^ gamma *
      bceWithLogits (pred_logits i) (targets i)) / (Fintype.card ι : ℝ)

end FocalLoss

namespace OHEM

/-- Per-anchor cross-entropy
`F.cross_entropy(pred_logits.view(-1, num_classes), targets.view(-1), reduce=False)`. -/
noncomputable def ce {B A C : ℕ} (pred_logits : Fin B → Fin A → Fin C → ℝ)
    (targets : Fin B → Fin A → ℕ) (b : Fin B) (a : Fin A) : ℝ :=
  crossEntropy (pred_logits b a) (targets b a)

/-- The mined loss `loss_c` after `loss_c[pos_boxes_mask.view(-1, 1)] = 0`:
per-anchor cross-entropy with positive anchors (target 1) zeroed out. -/
noncomputable def loss_c {B A C : ℕ} (pred_logits : Fin B → Fin A → Fin C → ℝ)
    (targets : Fin B → Fin A → ℕ) (b : Fin B) (a : Fin A) : ℝ :=
  if targets b a = 1 then 0 else ce pred_logits targets b a

/-- Rank of anchor `a` in the descending per-row sort of `loss_c`
(`_, loss_idx = loss_c.sort(1, descending=True); _, idx_rank = loss_idx.sort(1)`). -/
noncomputable def idx_rank {B A C : ℕ} (pred_logits : Fin B → Fin A → Fin C → ℝ)
    (targets : Fin B → Fin A → ℕ) (b : Fin B) (a : Fin A) : ℕ :=
  sortRank (fun a2 => loss_c pred_logits targets b a2) a

/-- Per-row positive count `num_pos = pos_boxes_mask.long().sum(1, keepdim=True)`. -/
def num_pos {B A : ℕ} (targets : Fin B → Fin A → ℕ) (b : Fin B) : ℕ :=
  #(univ.filter fun a => targets b a = 1)

/-- Per-row mined-negative quota
`num_neg = torch.clamp(self.neg_pos_ratio * num_pos, max=pos_boxes_mask.size(1) - 1)`. -/
def num_neg {B A : ℕ} (neg_pos_ratio : ℕ) (targets : Fin B → Fin A → ℕ) (b : Fin B) : ℕ :=
  min (neg_pos_ratio * num_pos targets b) (A - 1)

/-- Transcription of `OHEM.forward` from `layers/loss.py`: summed cross-entropy over the union of
positive anchors (`pos_boxes_mask`) and mined negatives
(`neg_boxes_mask = idx_rank < num_neg`), divided by
`N = max(num_pos.sum().float(), 1)`. -/
noncomputable def forward {B A C : ℕ} (neg_pos_ratio : ℕ)
    (pred_logits : Fin B → Fin A → Fin C → ℝ) (targets : Fin B → Fin A → ℕ) : ℝ :=
  (∑ b, ∑ a ∈ univ.filter
      (fun a => targets b a = 1 ∨ idx_rank pred_logits targets b a < num_neg neg_pos_ratio targets b),
      ce pred_logits targets b a) /
    ((max (∑ b, num_pos targets b) 1 : ℕ) : ℝ)

/-- The set of non-positive anchors of row `b` that contribute to the
classification loss: mined negatives that are not positives. -/
noncomputable def selectedNeg {B A C : ℕ} (neg_pos_ratio : ℕ)
    (pred_logits : Fin B → Fin A → Fin C → ℝ) (targets : Fin B → Fin A → ℕ)
    (b : Fin B) : Finset (Fin A) :=
  univ.filter fun a =>
    idx_rank pred_logits targets b a < num_neg neg_pos_ratio targets b ∧ targets b a ≠ 1

end OHEM

/-- Concrete OHEM logits (all zero): 1 batch row, 3 anchors, 2 classes. -/
noncomputable def ohemCxPred : Fin 1 → Fin 3 → Fin 2 → ℝ := fun _ _ _ => 0

/-- Concrete OHEM targets `(1, 1, 0)`: two positive anchors, one negative. -/
def ohemCxTargets : Fin 1 → Fin 3 → ℕ := fun _ a => if (a : ℕ) < 2 then 1 else 0

/-- Concrete OHEM logits (all zero): 1 batch row, 2 anchors, 2 classes. -/
noncomputable def ohemWitPred : Fin 1 → Fin 2 → Fin 2 → ℝ := fun _ _ _ => 0

/-- Concrete OHEM targets `(1, 0)`: one positive anchor, one negative. -/
def ohemWitTargets : Fin 1 → Fin 2 → ℕ := fun _ a => if (a : ℕ) = 0 then 1 else 0

namespace MultiBoxLoss

/-- Output of the anchor matcher: per-anchor class labels (`-1` marks matched
faces whose landmark annotation is unusable, per the comments in
`MultiBoxLoss.forward`), encoded box-regression targets, and encoded
landmark-regression targets. -/
structure Matched (B A : ℕ) where
  labels : Fin B → Fin A → ℤ
  boxes : Fin B → Fin A → Fin 4 → ℝ
  landmarks : Fin B → Fin A → Fin 10 → ℝ

/-- Modelled from the spec: `match_atss` (defined in `tools/box_utils.py`,
which is not among the analysed sources) performs ATSS-style adaptive matching
of ground-truth boxes, landmarks and labels to anchors. The spec fixes no
algorithm for it, so a matcher is an arbitrary function of the ground-truth
targets and the anchor boxes. -/
def Matcher (B A : ℕ) (τ : Type) : Type :=
  τ → (Fin A → Fin 4 → ℝ) → Matched B A

/-- Losses of `MultiBoxLoss.forward` as a function of the matched targets
(everything in `forward` after the `match_atss` call):
classification loss (`None` models the run failing at `return cls_loss` with
an unassigned `cls_loss`, or inside the FocalLoss branch on the
`F.one_hot` width mismatch), box-regression loss, landmark-regression loss. -/
noncomputable def lossesOfMatched {B A C : ℕ} (cls_loss_type : String)
    (neg_pos_ratio : ℕ) (pred_logits : Fin B → Fin A → Fin C → ℝ)
    (pred_boxes : Fin B → Fin A → Fin 4 → ℝ)
    (pred_landmarks : Fin B → Fin A → Fin 10 → ℝ)
    (md : Matched B A) : (Option ℝ) × ℝ × ℝ :=
  let matched_labels := md.labels
  -- 1. landmark loss over anchors with label > 0
  let N1 : ℕ := max (∑ b, #(univ.filter fun a => 0 < matched_labels b a)) 1
  let landmark_loss : ℝ :=
    (∑ b, ∑ a ∈ univ.filter (fun a => 0 < matched_labels b a),
      ∑ d, smoothL1 (pred_landmarks b a d) (md.landmarks b a d)) / (N1 : ℝ)
  -- 2. box loss over anchors with label ≠ 0
  let N : ℕ := max (∑ b, #(univ.filter fun a => matched_labels b a ≠ 0)) 1
  let box_loss : ℝ :=
    (∑ b, ∑ a ∈ univ.filter (fun a => matched_labels b a ≠ 0),
      ∑ d, smoothL1 (pred_boxes b a d) (md.boxes b a d)) / (N : ℝ)
  -- `matched_labels[pos_boxes_mask] = 1`: all nonzero labels become 1
  let labels2 : Fin B → Fin A → ℤ :=
    fun b a => if matched_labels b a ≠ 0 then 1 else matched_labels b a
  -- classification loss: two independent `if`s, no `else`
  let cls_loss : Option ℝ :=
    if cls_loss_type = "OHEM" then
      some (OHEM.forward neg_pos_ratio pred_logits (fun b a => (labels2 b a).toNat))
    else if cls_loss_type = "FocalLoss" then
      -- `F.one_hot(matched_labels.view(-1))` infers width (max label) + 1;
      -- BCE-with-logits then requires that width to equal C
      if (univ.sup fun p : Fin B × Fin A => (labels2 p.1 p.2).toNat) + 1 = C then
        some (FocalLoss.forward (1/4) 2
          (fun p : Fin B × Fin A × Fin C => pred_logits p.1 p.2.1 p.2.2)
          (fun p : Fin B × Fin A × Fin C =>
            if (p.2.2 : ℕ) = (labels2 p.1 p.2.1).toNat then 1 else 0))
      else none
    else none
  (cls_loss, box_loss, landmark_loss)

/-- Transcription of `MultiBoxLoss.forward` from `layers/loss.py`, in source order:
`matched_labels, matched_boxes, matched_landmarks = match_atss(...)`, then the
landmark loss over `matched_labels > 0`, the box loss over
`matched_labels != 0`, the `-1 -> 1` label conversion, and the classification
loss chosen by `cls_loss_type`. -/
noncomputable def forward {B A C : ℕ} {τ : Type} (cls_loss_type : String)
    (neg_pos_ratio : ℕ) (m : Matcher B A τ) (pred_logits : Fin B → Fin A → Fin C → ℝ)
    (pred_boxes : Fin B → Fin A → Fin 4 → ℝ)
    (pred_landmarks : Fin B → Fin A → Fin 10 → ℝ)
    (anchor_boxes : Fin A → Fin 4 → ℝ) (targets : τ) : (Option ℝ) × ℝ × ℝ :=
  let matched_labels : Fin B → Fin A → ℤ := (m targets anchor_boxes).labels
  let matched_boxes : Fin B → Fin A → Fin 4 → ℝ := (m targets anchor_boxes).boxes
  let matched_landmarks : Fin B → Fin A → Fin 10 → ℝ := (m targets anchor_boxes).landmarks
  let N1 : ℕ := max (∑ b, #(univ.filter fun a => 0 < matched_labels b a)) 1
  let landmark_loss : ℝ :=
    (∑ b, ∑ a ∈ univ.filter (fun a => 0 < matched_labels b a),
      ∑ d, smoothL1 (pred_landmarks b a d) (matched_landmarks b a d)) / (N1 : ℝ)
  let N : ℕ := max (∑ b, #(univ.filter fun a => matched_labels b a ≠ 0)) 1
  let box_loss : ℝ :=
    (∑ b, ∑ a ∈ univ.filter (fun a => matched_labels b a ≠ 0),
      ∑ d, smoothL1 (pred_boxes b a d) (matched_boxes b a d)) / (N : ℝ)
  let labels2 : Fin B → Fin A → ℤ :=
    fun b a => if matched_labels b a ≠ 0 then 1 else matched_labels b a
  let cls_loss : Option ℝ :=
    if cls_loss_type = "OHEM" then
      some (OHEM.forward neg_pos_ratio pred_logits (fun b a => (labels2 b a).toNat))
    else if cls_loss_type = "FocalLoss" then
      if (univ.sup fun p : Fin B × Fin A => (labels2 p.1 p.2).toNat) + 1 = C then
        some (FocalLoss.forward (1/4) 2
          (fun p : Fin B × Fin A × Fin C => pred_logits p.1 p.2.1 p.2.2)
          (fun p : Fin B × Fin A × Fin C =>
            if (p.2.2 : ℕ) = (labels2 p.1 p.2.1).toNat then 1 else 0))
      else none
    else none
  (cls_loss, box_loss, landmark_loss)

end MultiBoxLoss

/-- Concrete matcher assigning label `-1` (face without usable landmarks) to
the single anchor, with box target `(1, 1, 1, 1)`. -/
noncomputable def mbCxMatcher : MultiBoxLoss.Matcher 1 1 Unit :=
  fun _ _ => ⟨fun _ _ => -1, fun _ _ _ => 1, fun _ _ _ => 0⟩

/-- Concrete matcher assigning label `0` (unmatched) to the single anchor. -/
noncomputable def mbWitMatcher : MultiBoxLoss.Matcher 1 1 Unit :=
  fun _ _ => ⟨fun _ _ => 0, fun _ _ _ => 1, fun _ _ _ => 0⟩

/-- Concrete all-zero logits for one batch row, one anchor, two classes. -/
noncomputable def mbZeroLogits : Fin 1 → Fin 1 → Fin 2 → ℝ := fun _ _ _ => 0

/-- Concrete all-zero box predictions. -/
noncomputable def mbZeroBoxes : Fin 1 → Fin 1 → Fin 4 → ℝ := fun _ _ _ => 0

/-- Concrete all-zero landmark predictions. -/
noncomputable def mbZeroLandmarks : Fin 1 → Fin 1 → Fin 10 → ℝ := fun _ _ _ => 0

/-- Concrete all-zero anchor boxes. -/
noncomputable def mbZeroAnchors : Fin 1 → Fin 4 → ℝ := fun _ _ => 0

/-- Embedding of `nn.Softmax` / `F.softmax` over a class dimension:
`exp (v i) / Σ_j exp (v j)`. -/
noncomputable def softmax {C : ℕ} (v : Fin C → ℝ) (i : Fin C) : ℝ :=
  Real.exp (v i) / ∑ j, Real.exp (v j)

/-- Output length of a valid (padding-free) convolution or pooling with kernel
`k` and stride `s` along one spatial dimension of length `n`:
`(n - k) / s + 1` with floor division (`ceil_mode=False`). -/
def convOut (k s n : ℕ) : ℕ := (n - k) / s + 1

namespace PNet

/-- Spatial size along one dimension after the `PNet.features` stack of
`nets/modules.py`: `conv1 (3x3, stride 1) → prelu1 → pool1 (2x2, stride 2) →
conv2 (3x3, stride 1) → prelu2 → conv3 (3x3, stride 1) → prelu3`
(PReLU layers preserve shape), which the 1x1 heads `conv4_1`/`conv4_2` also
preserve. -/
def featureSize (n : ℕ) : ℕ := convOut 3 1 (convOut 3 1 (convOut 2 2 (convOut 3 1 n)))

/-- Shapes `(channels, height, width)` of the `(scores, offsets)` pair returned
by `PNet.forward` on a `(3, H, W)` input: `conv4_1` has 2 output channels,
`conv4_2` has 4, both 1x1. -/
def outputShapes (H W : ℕ) : (ℕ × ℕ × ℕ) × (ℕ × ℕ × ℕ) :=
  ((2, featureSize H, featureSize W), (4, featureSize H, featureSize W))

/-- Score path of `PNet.forward` at one spatial location: the raw `conv4_1`
channels when `is_train`, soft-maxed over the two class channels otherwise.
`raw` stands for the composite of `features` and `conv4_1`, whose learned
weights are arbitrary. -/
noncomputable def scores {α : Type} (raw : α → Fin 2 → ℝ) (is_train : Bool)
    (x : α) : Fin 2 → ℝ :=
  if is_train then raw x else softmax (raw x)

end PNet

namespace RNet

/-- Score path of `RNet.forward`: raw `conv5_1` scores when `is_train`,
soft-maxed otherwise; `raw` stands for `features` composed with `conv5_1`. -/
noncomputable def scores {α : Type} (raw : α → Fin 2 → ℝ) (is_train : Bool)
    (x : α) : Fin 2 → ℝ :=
  if is_train then raw x else softmax (raw x)

end RNet

namespace ONet

/-- Score path of `ONet.forward`: raw `conv6_1` scores when `is_train`,
soft-maxed otherwise; `raw` stands for `features` composed with `conv6_1`. -/
noncomputable def scores {α : Type} (raw : α → Fin 2 → ℝ) (is_train : Bool)
    (x : α) : Fin 2 → ℝ :=
  if is_train then raw x else softmax (raw x)

end ONet

/-- Configuration consumed by `AnchorGenerator.__init__` (`layers/anchor.py`):
`cfg.MODEL.anchor_sizes`, `cfg.MODEL.strides`, `cfg.TRAIN.clip_box`,
`cfg.DATA.image_size` as `(height, width)`. -/
structure AnchorCfg where
  min_sizes : List (List ℚ)
  steps : List ℕ
  clip : Bool
  image_size : ℕ × ℕ

namespace AnchorGenerator

/-- Clamp `output.clamp_(max=1, min=0)` on one coordinate. -/
def clamp01 (x : ℚ) : ℚ := max 0 (min 1 x)

/-- Anchors of one feature level `k`: for every cell `(i, j)` of the
`ceil(H / step) x ceil(W / step)` feature map and every `min_size`, the tuple
`(cx, cy, s_kx, s_ky)` with `cx = (j + 0.5) * step / W`,
`cy = (i + 0.5) * step / H`, `s_kx = min_size / W`, `s_ky = min_size / H`. -/
def levelAnchors (H W step : ℕ) (min_sizes : List ℚ) : List (ℚ × ℚ × ℚ × ℚ) :=
  (List.range (Nat.ceil ((H : ℚ) / step))).flatMap fun i =>
    (List.range (Nat.ceil ((W : ℚ) / step))).flatMap fun j =>
      min_sizes.map fun min_size =>
        (((j : ℚ) + 1/2) * step / W, ((i : ℚ) + 1/2) * step / H,
          min_size / W, min_size / H)

/-- Transcription of `AnchorGenerator.generate_anchors`: concatenation of all per-level anchors
over `enumerate(feature_maps)` paired with `min_sizes[k]` and `steps[k]`, each
coordinate clamped into `[0, 1]` when `clip` is set. -/
def generate_anchors (cfg : AnchorCfg) : List (ℚ × ℚ × ℚ × ℚ) :=
  let base := (cfg.steps.zip cfg.min_sizes).flatMap fun sk =>
    levelAnchors cfg.image_size.1 cfg.image_size.2 sk.1 sk.2
  if cfg.clip then
    base.map fun t => (clamp01 t.1, clamp01 t.2.1, clamp01 t.2.2.1, clamp01 t.2.2.2)
  else base

end AnchorGenerator

/-- Concrete anchor configuration: two feature levels with strides 8 and 16,
sizes 16/32 and 64, a 64 x 48 image, clipping enabled. -/
def anchorWitCfg : AnchorCfg :=
  ⟨[[16, 32], [64]], [8, 16], true, (64, 48)⟩

section SortRankLemmas

lemma sortRank_lt {A : ℕ} (L : Fin A → ℝ) (a : Fin A) : sortRank L a < A := by
  have hsub : (univ.filter fun c => L c > L a ∨ (L c = L a ∧ c < a)) ⊆ univ.erase a := by
    intro c hc
    simp only [Finset.mem_filter, Finset.mem_univ, true_and] at hc
    rw [Finset.mem_erase]
    refine ⟨?_, Finset.mem_univ c⟩
    intro hca
    rw [hca] at hc
    rcases hc with h | ⟨_, h⟩ <;> exact absurd h (lt_irrefl _)
  have h1 : sortRank L a ≤ (univ.erase a).card := Finset.card_le_card hsub
  have h2 : (univ.erase a).card = A - 1 := by
    rw [Finset.card_erase_of_mem (Finset.mem_univ a)]
    simp
  have hA : 0 < A := a.pos
  omega

lemma sortRank_lt_sortRank {A : ℕ} (L : Fin A → ℝ) {a c : Fin A}
    (h : L a > L c ∨ (L a = L c ∧ a < c)) : sortRank L a < sortRank L c := by
  unfold sortRank
  have ha : a ∉ univ.filter fun d => L d > L a ∨ (L d = L a ∧ d < a) := by
    intro hmem
    rcases (Finset.mem_filter.mp hmem).2 with hd | hd
    · exact lt_irrefl _ hd
    · exact lt_irrefl _ hd.2
  have hsub : insert a (univ.filter fun d => L d > L a ∨ (L d = L a ∧ d < a)) ⊆
      univ.filter fun d => L d > L c ∨ (L d = L c ∧ d < c) := by
    intro d hd
    rcases Finset.mem_insert.mp hd with rfl | hd
    · simp only [Finset.mem_filter, Finset.mem_univ, true_and]
      exact h
    · simp only [Finset.mem_filter, Finset.mem_univ, true_and] at hd ⊢
      rcases h with h | ⟨heq, hlt⟩
      · rcases hd with hd | ⟨hd, _⟩
        · exact Or.inl (lt_trans h hd)
        · exact Or.inl (hd ▸ h)
      · rcases hd with hd | ⟨hd, hdlt⟩
        · exact Or.inl (heq ▸ hd)
        · exact Or.inr ⟨hd.trans heq, lt_trans hdlt hlt⟩
  have hle := Finset.card_le_card hsub
  rw [Finset.card_insert_of_not_mem ha] at hle
  omega

lemma sortRank_injective {A : ℕ} (L : Fin A → ℝ) : Function.Injective (sortRank L) := by
  intro a c hac
  by_contra hne
  rcases lt_trichotomy (L a) (L c) with h | h | h
  · exact absurd hac (Nat.ne_of_gt (sortRank_lt_sortRank L (Or.inl h)))
  · rcases lt_or_gt_of_ne (fun he : a = c => hne he) with hlt | hgt
    · exact absurd hac (Nat.ne_of_lt (sortRank_lt_sortRank L (Or.inr ⟨h, hlt⟩)))
    · exact absurd hac (Nat.ne_of_gt (sortRank_lt_sortRank L (Or.inr ⟨h.symm, hgt⟩)))
  · exact absurd hac (Nat.ne_of_lt (sortRank_lt_sortRank L (Or.inl h)))

lemma sortRank_surjective {A : ℕ} (L : Fin A → ℝ) {m : ℕ} (hm : m < A) :
    ∃ a : Fin A, sortRank L a = m := by
  have hbij : Function.Bijective (fun a : Fin A => (⟨sortRank L a, sortRank_lt L a⟩ : Fin A)) := by
    rw [← Finite.injective_iff_bijective]
    intro a c hac
    exact sortRank_injective L (by simpa [Fin.ext_iff] using hac)
  obtain ⟨a, ha⟩ := hbij.surjective ⟨m, hm⟩
  exact ⟨a, by simpa [Fin.ext_iff] using ha⟩

/-- Exactly `k` indices have rank below `k`, whenever `k ≤ A`. -/
lemma card_sortRank_lt {A : ℕ} (L : Fin A → ℝ) {k : ℕ} (hk : k ≤ A) :
    #(univ.filter fun a => sortRank L a < k) = k := by
  rw [← Finset.card_range k]
  apply Finset.card_bij (fun a _ => sortRank L a)
  · intro a ha
    simp only [Finset.mem_filter] at ha
    simpa using ha.2
  · intro a ha c hc h
    exact sortRank_injective L h
  · intro m hm
    simp only [Finset.mem_range] at hm
    obtain ⟨a, ha⟩ := sortRank_surjective L (lt_of_lt_of_le hm hk)
    exact ⟨a, by simp [ha, hm], ha⟩

end SortRankLemmas

section CrossEntropyLemmas

lemma filter_fin_val_eq {C : ℕ} {t : ℕ} (ht : t < C) :
    (univ.filter fun j : Fin C => (j : ℕ) = t) = {(⟨t, ht⟩ : Fin C)} := by
  ext j
  simp [Fin.ext_iff]

lemma crossEntropy_eq {C : ℕ} (v : Fin C → ℝ) {t : ℕ} (ht : t < C) :
    crossEntropy v t = Real.log (∑ j : Fin C, Real.exp (v j)) - v ⟨t, ht⟩ := by
  unfold crossEntropy
  rw [filter_fin_val_eq ht, Finset.sum_singleton]

lemma crossEntropy_pos {C : ℕ} (hC : 2 ≤ C) (v : Fin C → ℝ) {t : ℕ} (ht : t < C) :
    0 < crossEntropy v t := by
  rw [crossEntropy_eq v ht]
  have hne : ((univ : Finset (Fin C)).erase ⟨t, ht⟩).Nonempty := by
    rw [← Finset.card_pos, Finset.card_erase_of_mem (Finset.mem_univ _)]
    simp only [Finset.card_univ, Fintype.card_fin]
    omega
  have hsplit : (∑ j : Fin C, Real.exp (v j)) =
      Real.exp (v ⟨t, ht⟩) + ∑ j ∈ univ.erase ⟨t, ht⟩, Real.exp (v j) :=
    (Finset.add_sum_erase univ _ (Finset.mem_univ _)).symm
  have hpos : 0 < ∑ j ∈ univ.erase ⟨t, ht⟩, Real.exp (v j) :=
    Finset.sum_pos (fun j _ => Real.exp_pos _) hne
  have hgt : Real.exp (v ⟨t, ht⟩) < ∑ j : Fin C, Real.exp (v j) := by
    rw [hsplit]; linarith
  have := (Real.lt_log_iff_exp_lt (lt_trans (Real.exp_pos _) hgt)).mpr hgt
  linarith

lemma crossEntropy_zero_logits : crossEntropy (fun _ : Fin 2 => (0 : ℝ)) 0 = Real.log 2 := by
  rw [crossEntropy_eq (fun _ : Fin 2 => (0 : ℝ)) (by norm_num : 0 < 2)]
  simp [Real.exp_zero]

end CrossEntropyLemmas

section SigmoidLemmas

lemma sigmoid_pos (x : ℝ) : 0 < sigmoid x := by
  unfold sigmoid
  positivity

lemma sigmoid_lt_one (x : ℝ) : sigmoid x < 1 := by
  unfold sigmoid
  rw [div_lt_one (by positivity)]
  linarith [Real.exp_pos (-x)]

lemma one_sub_sigmoid_pos (x : ℝ) : 0 < 1 - sigmoid x := by
  linarith [sigmoid_lt_one x]

lemma sigmoid_monotone : Monotone sigmoid := by
  intro a b hab
  unfold sigmoid
  apply div_le_div_of_nonneg_left (by norm_num) (by positivity)
  have := Real.exp_le_exp.mpr (neg_le_neg hab)
  linarith

lemma sigmoid_zero : sigmoid 0 = 1 / 2 := by
  unfold sigmoid
  rw [neg_zero, Real.exp_zero]
  norm_num

end SigmoidLemmas

section BceLemmas

lemma bceWithLogits_zero_one : bceWithLogits 0 1 = Real.log 2 := by
  unfold bceWithLogits
  rw [sigmoid_zero]
  rw [show (1 : ℝ) - 1 / 2 = 1 / 2 by norm_num, one_div, Real.log_inv]
  ring

lemma bceWithLogits_zero_zero : bceWithLogits 0 0 = Real.log 2 := by
  unfold bceWithLogits
  rw [sigmoid_zero]
  rw [show (1 : ℝ) - 1 / 2 = 1 / 2 by norm_num, one_div, Real.log_inv]
  ring

lemma bceWithLogits_one_nonneg (x : ℝ) : 0 ≤ bceWithLogits x 1 := by
  unfold bceWithLogits
  have h := Real.log_nonpos (le_of_lt (sigmoid_pos x)) (le_of_lt (sigmoid_lt_one x))
  simp only [sub_self, zero_mul, one_mul, add_zero]
  linarith

lemma bceWithLogits_zero_nonneg (x : ℝ) : 0 ≤ bceWithLogits x 0 := by
  unfold bceWithLogits
  have h := Real.log_nonpos (le_of_lt (one_sub_sigmoid_pos x))
    (by linarith [sigmoid_pos x])
  simp only [zero_mul, sub_zero, one_mul, zero_add]
  linarith

lemma bceWithLogits_one_antitone {a b : ℝ} (hab : a ≤ b) :
    bceWithLogits b 1 ≤ bceWithLogits a 1 := by
  unfold bceWithLogits
  have h := Real.log_le_log (sigmoid_pos a) (sigmoid_monotone hab)
  simp only [sub_self, zero_mul, one_mul, add_zero]
  linarith

lemma bceWithLogits_zero_monotone {a b : ℝ} (hab : a ≤ b) :
    bceWithLogits a 0 ≤ bceWithLogits b 0 := by
  unfold bceWithLogits
  have h := Real.log_le_log (one_sub_sigmoid_pos b)
    (by linarith [sigmoid_monotone hab] : 1 - sigmoid b ≤ 1 - sigmoid a)
  simp only [zero_mul, sub_zero, one_mul, zero_add]
  linarith

end BceLemmas

namespace FocalLoss

/-- The summed-BCE factor can be pulled out of the sum: `forward` equals
(sum of the per-element weights) times (summed BCE), divided by the number
of elements. -/
lemma forward_eq_mul {ι : Type*} [Fintype ι] (alpha : ℝ) (gamma : ℕ)
    (x t : ι → ℝ) :
    forward alpha gamma x t =
      ((∑ i, (t i * alpha + (1 - t i) * (1 - alpha)) *
          (1 - (if t i = 1 then sigmoid (x i) else 1 - sigmoid (x i))) ^ gamma) *
        (∑ i, bceWithLogits (x i) (t i))) / (Fintype.card ι : ℝ) := by
  simp only [forward]
  rw [Finset.sum_mul]

end FocalLoss

/-- C1. `FocalLoss.forward` with `reduction = 'sum'` multiplies each element's
focal weight by the batch-summed BCE rather than by that element's own BCE, so
for logits `(0, 0)` against targets `(1, 0)` the code returns `log 2 / 4` while
the per-element focal-loss mean of the cited paper is `log 2 / 8`; the two
values differ. -/
theorem FocalLoss.forward_ne_paper_mean_at_zero_logits :
    FocalLoss.forward (1/4) 2 (fun _ : Fin 2 => (0 : ℝ)) ![1, 0] = Real.log 2 / 4 ∧
    FocalLoss.specMean (1/4) 2 (fun _ : Fin 2 => (0 : ℝ)) ![1, 0] = Real.log 2 / 8 ∧
    FocalLoss.forward (1/4) 2 (fun _ : Fin 2 => (0 : ℝ)) ![1, 0] ≠
      FocalLoss.specMean (1/4) 2 (fun _ : Fin 2 => (0 : ℝ)) ![1, 0] := by
  have hfwd : FocalLoss.forward (1/4) 2 (fun _ : Fin 2 => (0 : ℝ)) ![1, 0] = Real.log 2 / 4 := by
    unfold FocalLoss.forward
    simp only [Fin.sum_univ_two, Matrix.cons_val_zero, Matrix.cons_val_one, Matrix.head_cons,
      bceWithLogits_zero_one, bceWithLogits_zero_zero, sigmoid_zero, Fintype.card_fin]
    norm_num
    ring
  have hspec : FocalLoss.specMean (1/4) 2 (fun _ : Fin 2 => (0 : ℝ)) ![1, 0] = Real.log 2 / 8 := by
    unfold FocalLoss.specMean
    simp only [Fin.sum_univ_two, Matrix.cons_val_zero, Matrix.cons_val_one, Matrix.head_cons,
      bceWithLogits_zero_one, bceWithLogits_zero_zero, sigmoid_zero, Fintype.card_fin]
    norm_num
    ring
  refine ⟨hfwd, hspec, ?_⟩
  rw [hfwd, hspec]
  have hlog := Real.log_pos (by norm_num : (1 : ℝ) < 2)
  intro heq
  have : Real.log 2 = 0 := by linarith
  linarith

/-- C6. For a fixed binary target tensor, `FocalLoss.forward` (defaults
`alpha = 1/4`, `gamma = 2`) never increases when one logit is moved toward its
target (up for target 1, down for target 0) with all other logits fixed. -/
theorem FocalLoss.forward_antitone_toward_target {n : ℕ} (x y t : Fin n → ℝ)
    (hbin : ∀ i, t i = 0 ∨ t i = 1) (i₀ : Fin n)
    (h1 : t i₀ = 1 → x i₀ ≤ y i₀) (h0 : t i₀ = 0 → y i₀ ≤ x i₀)
    (hother : ∀ j, j ≠ i₀ → y j = x j) :
    FocalLoss.forward (1/4) 2 y t ≤ FocalLoss.forward (1/4) 2 x t := by
  rw [FocalLoss.forward_eq_mul, FocalLoss.forward_eq_mul]
  have hbceY : ∀ i, 0 ≤ bceWithLogits (y i) (t i) := by
    intro i
    rcases hbin i with ht | ht <;> rw [ht]
    · exact bceWithLogits_zero_nonneg _
    · exact bceWithLogits_one_nonneg _
  have hS : (∑ i, bceWithLogits (y i) (t i)) ≤ ∑ i, bceWithLogits (x i) (t i) := by
    apply Finset.sum_le_sum
    intro i _
    by_cases hi : i = i₀
    · subst hi
      rcases hbin i with ht | ht <;> rw [ht]
      · exact bceWithLogits_zero_monotone (h0 ht)
      · exact bceWithLogits_one_antitone (h1 ht)
    · rw [hother i hi]
  have hS0 : 0 ≤ ∑ i, bceWithLogits (y i) (t i) := Finset.sum_nonneg fun i _ => hbceY i
  have hwY : ∀ i, 0 ≤ (t i * (1/4) + (1 - t i) * (1 - 1/4)) *
      (1 - (if t i = 1 then sigmoid (y i) else 1 - sigmoid (y i))) ^ 2 := by
    intro i
    apply mul_nonneg _ (sq_nonneg _)
    rcases hbin i with ht | ht <;> rw [ht] <;> norm_num
  have hW : (∑ i, (t i * (1/4) + (1 - t i) * (1 - 1/4)) *
        (1 - (if t i = 1 then sigmoid (y i) else 1 - sigmoid (y i))) ^ 2) ≤
      ∑ i, (t i * (1/4) + (1 - t i) * (1 - 1/4)) *
        (1 - (if t i = 1 then sigmoid (x i) else 1 - sigmoid (x i))) ^ 2 := by
    apply Finset.sum_le_sum
    intro i _
    by_cases hi : i = i₀
    · subst hi
      rcases hbin i with ht | ht <;> rw [ht]
      · have hle := sigmoid_monotone (h0 ht)
        have hone : ((0 : ℝ) = 1) = False := by norm_num
        simp only [hone, if_false, sub_sub_cancel]
        have hnn : (0 : ℝ) ≤ sigmoid (y i) := le_of_lt (sigmoid_pos _)
        have := pow_le_pow_left hnn hle 2
        nlinarith
      · simp only [eq_self_iff_true, if_true]
        have hle := sigmoid_monotone (h1 ht)
        have hnn : (0 : ℝ) ≤ 1 - sigmoid (y i) := le_of_lt (one_sub_sigmoid_pos _)
        have := pow_le_pow_left hnn (by linarith : 1 - sigmoid (y i) ≤ 1 - sigmoid (x i)) 2
        nlinarith
    · rw [hother i hi]
  have hW0 : 0 ≤ ∑ i, (t i * (1/4) + (1 - t i) * (1 - 1/4)) *
      (1 - (if t i = 1 then sigmoid (y i) else 1 - sigmoid (y i))) ^ 2 :=
    Finset.sum_nonneg fun i _ => hwY i
  have hnum := mul_le_mul hW hS hS0 (le_trans hW0 hW)
  rcases Nat.eq_zero_or_pos n with hn | hn
  · subst hn
    simp
  · have hcard : (0 : ℝ) < (Fintype.card (Fin n) : ℝ) := by
      simp only [Fintype.card_fin]
      exact_mod_cast hn
    exact (div_le_div_right hcard).mpr hnum

/-- C6 witness: at a concrete one-element input with target 1 and an unmoved
logit, the hypotheses of `FocalLoss.forward_antitone_toward_target` hold and
the loss does not increase. -/
theorem FocalLoss.forward_antitone_toward_target_witness :
    (∀ i : Fin 1, (fun _ : Fin 1 => (1 : ℝ)) i = 0 ∨ (fun _ : Fin 1 => (1 : ℝ)) i = 1) ∧
    FocalLoss.forward (1/4) 2 (fun _ : Fin 1 => (0 : ℝ)) (fun _ : Fin 1 => (1 : ℝ)) ≤
      FocalLoss.forward (1/4) 2 (fun _ : Fin 1 => (0 : ℝ)) (fun _ : Fin 1 => (1 : ℝ)) :=
  ⟨fun _ => Or.inr rfl,
    FocalLoss.forward_antitone_toward_target
      (fun _ : Fin 1 => (0 : ℝ)) (fun _ : Fin 1 => (0 : ℝ)) (fun _ : Fin 1 => (1 : ℝ))
      (fun _ => Or.inr rfl) 0 (fun _ => le_refl _)
      (fun h => absurd h (by norm_num)) (fun j hj => absurd (Subsingleton.elim j 0) hj)⟩

section OHEMLemmas

variable {B A C : ℕ}

/-- Every positive anchor ranks at or below all negatives in the mined order:
its rank is at least the number of non-positive anchors in its row. -/
lemma OHEM.negCount_le_idx_rank_of_pos (pred_logits : Fin B → Fin A → Fin C → ℝ)
    (targets : Fin B → Fin A → ℕ) (hC : 2 ≤ C) (ht : ∀ b a, targets b a < C)
    (b : Fin B) {a : Fin A} (ha : targets b a = 1) :
    #(univ.filter fun a2 => targets b a2 ≠ 1) ≤ OHEM.idx_rank pred_logits targets b a := by
  unfold OHEM.idx_rank sortRank
  apply Finset.card_le_card
  intro n hn
  simp only [Finset.mem_filter, Finset.mem_univ, true_and] at hn ⊢
  left
  have hLa : OHEM.loss_c pred_logits targets b a = 0 := if_pos ha
  have hLn : OHEM.loss_c pred_logits targets b n = OHEM.ce pred_logits targets b n := if_neg hn
  have hpos : 0 < OHEM.ce pred_logits targets b n := crossEntropy_pos hC _ (ht b n)
  rw [hLa, hLn]
  exact hpos

/-- Every non-positive anchor ranks strictly within the first `#negatives`
positions of the mined order. -/
lemma OHEM.idx_rank_lt_negCount (pred_logits : Fin B → Fin A → Fin C → ℝ)
    (targets : Fin B → Fin A → ℕ) (hC : 2 ≤ C) (ht : ∀ b a, targets b a < C)
    (b : Fin B) {n : Fin A} (hn : targets b n ≠ 1) :
    OHEM.idx_rank pred_logits targets b n < #(univ.filter fun a2 => targets b a2 ≠ 1) := by
  have hLn : 0 < OHEM.loss_c pred_logits targets b n := by
    rw [OHEM.loss_c, if_neg hn]
    exact crossEntropy_pos hC _ (ht b n)
  have hsub : (univ.filter fun c => OHEM.loss_c pred_logits targets b c > OHEM.loss_c pred_logits targets b n ∨
      (OHEM.loss_c pred_logits targets b c = OHEM.loss_c pred_logits targets b n ∧ c < n)) ⊆
      (univ.filter fun a2 => targets b a2 ≠ 1).erase n := by
    intro c hc
    simp only [Finset.mem_filter, Finset.mem_univ, true_and] at hc
    rw [Finset.mem_erase]
    constructor
    · intro hcn
      rw [hcn] at hc
      rcases hc with h | ⟨_, h⟩ <;> exact absurd h (lt_irrefl _)
    · simp only [Finset.mem_filter, Finset.mem_univ, true_and]
      intro hc1
      have hLc : OHEM.loss_c pred_logits targets b c = 0 := if_pos hc1
      rcases hc with h | ⟨h, _⟩
      · rw [hLc] at h; linarith
      · rw [hLc] at h; linarith
  have hmem : n ∈ univ.filter (fun a2 => targets b a2 ≠ 1) := by
    simp only [Finset.mem_filter, Finset.mem_univ, true_and]
    exact hn
  have h1 : OHEM.idx_rank pred_logits targets b n ≤
      ((univ.filter fun a2 => targets b a2 ≠ 1).erase n).card := Finset.card_le_card hsub
  rw [Finset.card_erase_of_mem hmem] at h1
  have h2 : 0 < #(univ.filter fun a2 => targets b a2 ≠ 1) := Finset.card_pos.mpr ⟨n, hmem⟩
  omega

/-- C2 (amended). The non-positive anchors contributing to the OHEM
classification loss are, in each batch row, mined negatives of maximal
per-anchor cross-entropy, and there are exactly
`min (neg_pos_ratio * positives) (A - 1) ⊓ (number of non-positive anchors)`
of them; the returned value is the summed cross-entropy over all positive
anchors and these selected negatives, divided by
`max (total positives in the batch) 1`. -/
theorem OHEM.forward_hard_negative_mining (neg_pos_ratio : ℕ)
    (pred_logits : Fin B → Fin A → Fin C → ℝ) (targets : Fin B → Fin A → ℕ)
    (hC : 2 ≤ C) (ht : ∀ b a, targets b a < C) :
    (∀ b, (OHEM.selectedNeg neg_pos_ratio pred_logits targets b).card =
        min (OHEM.num_neg neg_pos_ratio targets b) #(univ.filter fun a => targets b a ≠ 1)) ∧
    (∀ b, ∀ s ∈ OHEM.selectedNeg neg_pos_ratio pred_logits targets b,
        ∀ n, targets b n ≠ 1 → n ∉ OHEM.selectedNeg neg_pos_ratio pred_logits targets b →
        OHEM.ce pred_logits targets b n ≤ OHEM.ce pred_logits targets b s) ∧
    OHEM.forward neg_pos_ratio pred_logits targets =
      (∑ b, ((∑ a ∈ univ.filter (fun a => targets b a = 1), OHEM.ce pred_logits targets b a) +
        ∑ a ∈ OHEM.selectedNeg neg_pos_ratio pred_logits targets b,
          OHEM.ce pred_logits targets b a)) /
      ((max (∑ b, OHEM.num_pos targets b) 1 : ℕ) : ℝ) := by
  refine ⟨?_, ?_, ?_⟩
  · intro b
    by_cases hcase : OHEM.num_neg neg_pos_ratio targets b ≤ #(univ.filter fun a => targets b a ≠ 1)
    · have hsel : OHEM.selectedNeg neg_pos_ratio pred_logits targets b =
          univ.filter (fun a => OHEM.idx_rank pred_logits targets b a < OHEM.num_neg neg_pos_ratio targets b) := by
        ext a
        simp only [OHEM.selectedNeg, Finset.mem_filter, Finset.mem_univ, true_and]
        constructor
        · exact fun h => h.1
        · intro h
          refine ⟨h, ?_⟩
          intro ha
          have := OHEM.negCount_le_idx_rank_of_pos pred_logits targets hC ht b ha
          omega
      rw [hsel]
      have hkA : OHEM.num_neg neg_pos_ratio targets b ≤ A := by
        have : OHEM.num_neg neg_pos_ratio targets b ≤ A - 1 := min_le_right _ _
        omega
      rw [show (univ.filter fun a => OHEM.idx_rank pred_logits targets b a < OHEM.num_neg neg_pos_ratio targets b) =
          (univ.filter fun a => sortRank (fun a2 => OHEM.loss_c pred_logits targets b a2) a < OHEM.num_neg neg_pos_ratio targets b) from rfl]
      rw [card_sortRank_lt _ hkA]
      exact (min_eq_left hcase).symm
    · push_neg at hcase
      have hsel : OHEM.selectedNeg neg_pos_ratio pred_logits targets b =
          univ.filter (fun a => targets b a ≠ 1) := by
        ext a
        simp only [OHEM.selectedNeg, Finset.mem_filter, Finset.mem_univ, true_and]
        constructor
        · exact fun h => h.2
        · intro h
          exact ⟨lt_trans (OHEM.idx_rank_lt_negCount pred_logits targets hC ht b h) hcase, h⟩
      rw [hsel, min_eq_right (le_of_lt hcase)]
  · intro b s hs n hn hnot
    simp only [OHEM.selectedNeg, Finset.mem_filter, Finset.mem_univ, true_and] at hs hnot
    have hrankn : ¬ OHEM.idx_rank pred_logits targets b n < OHEM.num_neg neg_pos_ratio targets b := by
      intro hlt
      exact hnot ⟨hlt, hn⟩
    by_contra hcon
    push_neg at hcon
    have hLs : OHEM.loss_c pred_logits targets b s = OHEM.ce pred_logits targets b s := if_neg hs.2
    have hLn : OHEM.loss_c pred_logits targets b n = OHEM.ce pred_logits targets b n := if_neg hn
    have hgt : OHEM.loss_c pred_logits targets b n > OHEM.loss_c pred_logits targets b s := by
      rw [hLs, hLn]; exact hcon
    have := sortRank_lt_sortRank (fun a2 => OHEM.loss_c pred_logits targets b a2) (Or.inl hgt)
    have hlt : OHEM.idx_rank pred_logits targets b n < OHEM.idx_rank pred_logits targets b s := this
    have := hs.1
    omega
  · unfold OHEM.forward
    congr 1
    apply Finset.sum_congr rfl
    intro b _
    have hsplit : (univ.filter fun a => targets b a = 1 ∨
        OHEM.idx_rank pred_logits targets b a < OHEM.num_neg neg_pos_ratio targets b) =
        (univ.filter fun a => targets b a = 1) ∪ OHEM.selectedNeg neg_pos_ratio pred_logits targets b := by
      ext a
      simp only [OHEM.selectedNeg, Finset.mem_union, Finset.mem_filter, Finset.mem_univ, true_and]
      tauto
    have hdisj : Disjoint (univ.filter fun a => targets b a = 1)
        (OHEM.selectedNeg neg_pos_ratio pred_logits targets b) := by
      rw [Finset.disjoint_left]
      intro a ha hb
      simp only [Finset.mem_filter, Finset.mem_univ, true_and] at ha
      simp only [OHEM.selectedNeg, Finset.mem_filter, Finset.mem_univ, true_and] at hb
      exact hb.2 ha
    rw [hsplit, Finset.sum_union hdisj]

end OHEMLemmas

section OHEMCounterexample

lemma ohemCx_loss_c_zero : OHEM.loss_c ohemCxPred ohemCxTargets 0 0 = 0 := by
  unfold OHEM.loss_c
  exact if_pos rfl

lemma ohemCx_loss_c_one : OHEM.loss_c ohemCxPred ohemCxTargets 0 1 = 0 := by
  unfold OHEM.loss_c
  exact if_pos rfl

lemma ohemCx_loss_c_two : OHEM.loss_c ohemCxPred ohemCxTargets 0 2 = Real.log 2 := by
  unfold OHEM.loss_c
  rw [if_neg (by norm_num [ohemCxTargets])]
  unfold OHEM.ce
  exact crossEntropy_zero_logits

lemma ohemCx_idx_rank_two : OHEM.idx_rank ohemCxPred ohemCxTargets 0 2 = 0 := by
  unfold OHEM.idx_rank sortRank
  rw [Finset.card_eq_zero, Finset.filter_eq_empty_iff]
  intro c _
  change ¬(OHEM.loss_c ohemCxPred ohemCxTargets 0 c > OHEM.loss_c ohemCxPred ohemCxTargets 0 2 ∨
    (OHEM.loss_c ohemCxPred ohemCxTargets 0 c = OHEM.loss_c ohemCxPred ohemCxTargets 0 2 ∧ c < 2))
  have hcases : ∀ x : Fin 3, x = 0 ∨ x = 1 ∨ x = 2 := by decide
  have hlog := Real.log_pos (by norm_num : (1 : ℝ) < 2)
  rcases hcases c with rfl | rfl | rfl
  · rw [ohemCx_loss_c_zero, ohemCx_loss_c_two]
    rintro (h | ⟨h, _⟩) <;> linarith
  · rw [ohemCx_loss_c_one, ohemCx_loss_c_two]
    rintro (h | ⟨h, _⟩) <;> linarith
  · rintro (h | ⟨_, h⟩)
    · exact absurd h (lt_irrefl _)
    · exact absurd h (lt_irrefl _)

lemma ohemCx_selectedNeg : OHEM.selectedNeg 3 ohemCxPred ohemCxTargets 0 = {(2 : Fin 3)} := by
  have hnn : OHEM.num_neg 3 ohemCxTargets 0 = 2 := by decide
  ext a
  simp only [OHEM.selectedNeg, Finset.mem_filter, Finset.mem_univ, true_and,
    Finset.mem_singleton]
  have hcases : ∀ x : Fin 3, x = 0 ∨ x = 1 ∨ x = 2 := by decide
  rcases hcases a with rfl | rfl | rfl
  · constructor
    · rintro ⟨_, h⟩
      exact absurd rfl h
    · intro h
      exact absurd h (by decide)
  · constructor
    · rintro ⟨_, h⟩
      exact absurd rfl h
    · intro h
      exact absurd h (by decide)
  · constructor
    · intro _
      rfl
    · intro _
      refine ⟨?_, by decide⟩
      rw [ohemCx_idx_rank_two, hnn]
      norm_num

/-- C2 counterexample: with one batch row, 3 anchors, per-row targets
`(1, 1, 0)`, `neg_pos_ratio = 3` and all-zero logits, the claimed number of
contributing negatives `min (neg_pos_ratio * positives) (A - 1)` is `2`, yet
only one non-positive anchor contributes to the classification loss (there is
only one negative in the row). -/
theorem OHEM.selectedNeg_card_ne_num_neg :
    OHEM.num_neg 3 ohemCxTargets 0 = 2 ∧
    (OHEM.selectedNeg 3 ohemCxPred ohemCxTargets 0).card = 1 := by
  refine ⟨by decide, ?_⟩
  rw [ohemCx_selectedNeg]
  rfl

/-- C2 witness: the hypotheses and conclusion of
`OHEM.forward_hard_negative_mining` at a concrete input with one positive and
one negative anchor. -/
theorem OHEM.forward_hard_negative_mining_witness :
    (2 ≤ 2 ∧ ∀ (b : Fin 1) (a : Fin 2), ohemWitTargets b a < 2) ∧
    ((∀ b, (OHEM.selectedNeg 1 ohemWitPred ohemWitTargets b).card =
        min (OHEM.num_neg 1 ohemWitTargets b) #(univ.filter fun a => ohemWitTargets b a ≠ 1)) ∧
     (∀ b, ∀ s ∈ OHEM.selectedNeg 1 ohemWitPred ohemWitTargets b,
        ∀ n, ohemWitTargets b n ≠ 1 → n ∉ OHEM.selectedNeg 1 ohemWitPred ohemWitTargets b →
        OHEM.ce ohemWitPred ohemWitTargets b n ≤ OHEM.ce ohemWitPred ohemWitTargets b s) ∧
     OHEM.forward 1 ohemWitPred ohemWitTargets =
      (∑ b, ((∑ a ∈ univ.filter (fun a => ohemWitTargets b a = 1),
          OHEM.ce ohemWitPred ohemWitTargets b a) +
        ∑ a ∈ OHEM.selectedNeg 1 ohemWitPred ohemWitTargets b,
          OHEM.ce ohemWitPred ohemWitTargets b a)) /
      ((max (∑ b, OHEM.num_pos ohemWitTargets b) 1 : ℕ) : ℝ)) :=
  ⟨⟨le_refl 2, by decide⟩,
   OHEM.forward_hard_negative_mining 1 ohemWitPred ohemWitTargets (le_refl 2) (by decide)⟩

end OHEMCounterexample

section MultiBoxLemmas

lemma sum_filter_prod {B A : ℕ} (P : Fin B × Fin A → Prop) [DecidablePred P]
    (f : Fin B × Fin A → ℝ) :
    ∑ p ∈ univ.filter P, f p = ∑ b, ∑ a ∈ univ.filter (fun a => P (b, a)), f (b, a) := by
  rw [Finset.sum_filter, Fintype.sum_prod_type]
  exact Finset.sum_congr rfl fun b _ => (Finset.sum_filter _ _).symm

lemma card_filter_prod {B A : ℕ} (P : Fin B × Fin A → Prop) [DecidablePred P] :
    #(univ.filter P) = ∑ b, #(univ.filter fun a => P (b, a)) := by
  rw [Finset.card_filter, Fintype.sum_prod_type]
  exact Finset.sum_congr rfl fun b _ => (Finset.card_filter _ _).symm

/-- C3. `MultiBoxLoss.forward` assigns its targets with the adaptive matcher
(the `match_atss` call; the fixed-IoU `match` call is commented out in the
source) and computes all three returned losses from that matcher's output:
`forward` factors through `lossesOfMatched` applied to the matched targets. -/
theorem MultiBoxLoss.forward_factors_through_matcher {B A C : ℕ} {τ : Type}
    (cls_loss_type : String) (neg_pos_ratio : ℕ) (m : MultiBoxLoss.Matcher B A τ)
    (pred_logits : Fin B → Fin A → Fin C → ℝ) (pred_boxes : Fin B → Fin A → Fin 4 → ℝ)
    (pred_landmarks : Fin B → Fin A → Fin 10 → ℝ) (anchor_boxes : Fin A → Fin 4 → ℝ)
    (targets : τ) :
    MultiBoxLoss.forward cls_loss_type neg_pos_ratio m pred_logits pred_boxes
        pred_landmarks anchor_boxes targets =
      MultiBoxLoss.lossesOfMatched cls_loss_type neg_pos_ratio pred_logits pred_boxes
        pred_landmarks (m targets anchor_boxes) := rfl

/-- C4. The landmark-regression loss of `MultiBoxLoss.forward` is the summed
smooth-L1 over anchors with matched label strictly greater than `0`, divided by
`max(count, 1)`; the box-regression loss is the summed smooth-L1 over anchors
with nonzero matched label (including the `-1` labels of faces without usable
landmarks), divided by `max(count, 1)`. -/
theorem MultiBoxLoss.landmark_and_box_loss_masks {B A C : ℕ} {τ : Type}
    (cls_loss_type : String) (neg_pos_ratio : ℕ) (m : MultiBoxLoss.Matcher B A τ)
    (pred_logits : Fin B → Fin A → Fin C → ℝ) (pred_boxes : Fin B → Fin A → Fin 4 → ℝ)
    (pred_landmarks : Fin B → Fin A → Fin 10 → ℝ) (anchor_boxes : Fin A → Fin 4 → ℝ)
    (targets : τ) :
    (MultiBoxLoss.forward cls_loss_type neg_pos_ratio m pred_logits pred_boxes
        pred_landmarks anchor_boxes targets).2.2 =
      (∑ p ∈ univ.filter (fun p : Fin B × Fin A =>
          0 < (m targets anchor_boxes).labels p.1 p.2),
        ∑ d, smoothL1 (pred_landmarks p.1 p.2 d)
          ((m targets anchor_boxes).landmarks p.1 p.2 d)) /
      ((max #(univ.filter fun p : Fin B × Fin A =>
          0 < (m targets anchor_boxes).labels p.1 p.2) 1 : ℕ) : ℝ) ∧
    (MultiBoxLoss.forward cls_loss_type neg_pos_ratio m pred_logits pred_boxes
        pred_landmarks anchor_boxes targets).2.1 =
      (∑ p ∈ univ.filter (fun p : Fin B × Fin A =>
          (m targets anchor_boxes).labels p.1 p.2 ≠ 0),
        ∑ d, smoothL1 (pred_boxes p.1 p.2 d)
          ((m targets anchor_boxes).boxes p.1 p.2 d)) /
      ((max #(univ.filter fun p : Fin B × Fin A =>
          (m targets anchor_boxes).labels p.1 p.2 ≠ 0) 1 : ℕ) : ℝ) := by
  constructor
  · simp only [MultiBoxLoss.forward, MultiBoxLoss.lossesOfMatched]
    rw [sum_filter_prod (fun p : Fin B × Fin A => 0 < (m targets anchor_boxes).labels p.1 p.2)
        (fun p : Fin B × Fin A => ∑ d, smoothL1 (pred_landmarks p.1 p.2 d)
          ((m targets anchor_boxes).landmarks p.1 p.2 d)),
      card_filter_prod (fun p : Fin B × Fin A => 0 < (m targets anchor_boxes).labels p.1 p.2)]
  · simp only [MultiBoxLoss.forward, MultiBoxLoss.lossesOfMatched]
    rw [sum_filter_prod (fun p : Fin B × Fin A => (m targets anchor_boxes).labels p.1 p.2 ≠ 0)
        (fun p : Fin B × Fin A => ∑ d, smoothL1 (pred_boxes p.1 p.2 d)
          ((m targets anchor_boxes).boxes p.1 p.2 d)),
      card_filter_prod (fun p : Fin B × Fin A => (m targets anchor_boxes).labels p.1 p.2 ≠ 0)]

/-- C5 (amended). Every normalizing divisor of `MultiBoxLoss.forward` is
`max(count, 1)` and hence at least `1`; and when no anchor receives a nonzero
matched label (which is strictly stronger than receiving no positive label:
label `-1` still selects an anchor for the box loss), the returned box and
landmark losses are both `0`. -/
theorem MultiBoxLoss.forward_defined_without_positives {B A C : ℕ} {τ : Type}
    (cls_loss_type : String) (neg_pos_ratio : ℕ) (m : MultiBoxLoss.Matcher B A τ)
    (pred_logits : Fin B → Fin A → Fin C → ℝ) (pred_boxes : Fin B → Fin A → Fin 4 → ℝ)
    (pred_landmarks : Fin B → Fin A → Fin 10 → ℝ) (anchor_boxes : Fin A → Fin 4 → ℝ)
    (targets : τ) (h : ∀ b a, (m targets anchor_boxes).labels b a = 0) :
    1 ≤ max (∑ b, #(univ.filter fun a => 0 < (m targets anchor_boxes).labels b a)) 1 ∧
    1 ≤ max (∑ b, #(univ.filter fun a => (m targets anchor_boxes).labels b a ≠ 0)) 1 ∧
    (MultiBoxLoss.forward cls_loss_type neg_pos_ratio m pred_logits pred_boxes
        pred_landmarks anchor_boxes targets).2.1 = 0 ∧
    (MultiBoxLoss.forward cls_loss_type neg_pos_ratio m pred_logits pred_boxes
        pred_landmarks anchor_boxes targets).2.2 = 0 := by
  have hpos : ∀ b, (univ.filter fun a => 0 < (m targets anchor_boxes).labels b a) = ∅ := by
    intro b
    rw [Finset.filter_eq_empty_iff]
    intro a _
    rw [h b a]
    exact lt_irrefl 0
  have hnz : ∀ b, (univ.filter fun a => (m targets anchor_boxes).labels b a ≠ 0) = ∅ := by
    intro b
    rw [Finset.filter_eq_empty_iff]
    intro a _
    rw [h b a]
    exact fun hc => hc rfl
  refine ⟨le_max_right _ _, le_max_right _ _, ?_, ?_⟩
  · simp only [MultiBoxLoss.forward, MultiBoxLoss.lossesOfMatched]
    rw [show (∑ b, ∑ a ∈ univ.filter (fun a => (m targets anchor_boxes).labels b a ≠ 0),
        ∑ d, smoothL1 (pred_boxes b a d) ((m targets anchor_boxes).boxes b a d)) = 0 from
      Finset.sum_eq_zero fun b _ => by rw [hnz b, Finset.sum_empty]]
    exact zero_div _
  · simp only [MultiBoxLoss.forward, MultiBoxLoss.lossesOfMatched]
    rw [show (∑ b, ∑ a ∈ univ.filter (fun a => 0 < (m targets anchor_boxes).labels b a),
        ∑ d, smoothL1 (pred_landmarks b a d) ((m targets anchor_boxes).landmarks b a d)) = 0 from
      Finset.sum_eq_zero fun b _ => by rw [hpos b, Finset.sum_empty]]
    exact zero_div _

/-- C5 witness: a concrete matcher assigning label `0` everywhere satisfies the
hypothesis, and the box and landmark losses are `0` with divisors at least 1. -/
theorem MultiBoxLoss.forward_defined_without_positives_witness :
    (∀ (b : Fin 1) (a : Fin 1), (mbWitMatcher () mbZeroAnchors).labels b a = 0) ∧
    (1 ≤ max (∑ b, #(univ.filter fun a => 0 < (mbWitMatcher () mbZeroAnchors).labels b a)) 1 ∧
     1 ≤ max (∑ b, #(univ.filter fun a => (mbWitMatcher () mbZeroAnchors).labels b a ≠ 0)) 1 ∧
     (MultiBoxLoss.forward "OHEM" 3 mbWitMatcher mbZeroLogits mbZeroBoxes
        mbZeroLandmarks mbZeroAnchors ()).2.1 = 0 ∧
     (MultiBoxLoss.forward "OHEM" 3 mbWitMatcher mbZeroLogits mbZeroBoxes
        mbZeroLandmarks mbZeroAnchors ()).2.2 = 0) :=
  ⟨fun _ _ => rfl,
   MultiBoxLoss.forward_defined_without_positives "OHEM" 3 mbWitMatcher mbZeroLogits
     mbZeroBoxes mbZeroLandmarks mbZeroAnchors () (fun _ _ => rfl)⟩

/-- C5 counterexample: when the single anchor receives matched label `-1` (a
face without usable landmarks) — so that no anchor receives a positive matched
label — the box-regression loss is `2`, not `0`: anchors with label `-1` do
contribute to the box loss. -/
theorem MultiBoxLoss.box_loss_nonzero_without_positives :
    (∀ (b : Fin 1) (a : Fin 1), ¬ 0 < (mbCxMatcher () mbZeroAnchors).labels b a) ∧
    (MultiBoxLoss.forward "OHEM" 3 mbCxMatcher mbZeroLogits mbZeroBoxes
        mbZeroLandmarks mbZeroAnchors ()).2.1 = 2 := by
  constructor
  · decide
  · have hsm : smoothL1 0 1 = 1 / 2 := by
      unfold smoothL1
      rw [if_neg (by norm_num)]
      norm_num
    simp only [MultiBoxLoss.forward, MultiBoxLoss.lossesOfMatched, mbCxMatcher,
      mbZeroBoxes, hsm]
    norm_num [Finset.filter_true_of_mem, Finset.sum_const]

/-- C10. `MultiBoxLoss.forward` produces a classification loss only for
`cls_loss_type` equal to `"OHEM"` or `"FocalLoss"`; for every other value the
classification-loss variable is never assigned, modelled as the `None`
classification component (the Python code raises `UnboundLocalError` at
`return cls_loss`). -/
theorem MultiBoxLoss.forward_cls_none_of_unknown_type {B A C : ℕ} {τ : Type}
    (cls_loss_type : String) (neg_pos_ratio : ℕ) (m : MultiBoxLoss.Matcher B A τ)
    (pred_logits : Fin B → Fin A → Fin C → ℝ) (pred_boxes : Fin B → Fin A → Fin 4 → ℝ)
    (pred_landmarks : Fin B → Fin A → Fin 10 → ℝ) (anchor_boxes : Fin A → Fin 4 → ℝ)
    (targets : τ) (h1 : cls_loss_type ≠ "OHEM") (h2 : cls_loss_type ≠ "FocalLoss") :
    (MultiBoxLoss.forward cls_loss_type neg_pos_ratio m pred_logits pred_boxes
        pred_landmarks anchor_boxes targets).1 = none := by
  simp only [MultiBoxLoss.forward, MultiBoxLoss.lossesOfMatched]
  rw [if_neg h1, if_neg h2]

/-- C10 witness: with the unknown type `"MSE"` the hypotheses hold and the
classification component is `None`. -/
theorem MultiBoxLoss.forward_cls_none_of_unknown_type_witness :
    (("MSE" : String) ≠ "OHEM" ∧ ("MSE" : String) ≠ "FocalLoss") ∧
    (MultiBoxLoss.forward "MSE" 3 mbWitMatcher mbZeroLogits mbZeroBoxes
        mbZeroLandmarks mbZeroAnchors ()).1 = none :=
  ⟨⟨by decide, by decide⟩,
   MultiBoxLoss.forward_cls_none_of_unknown_type "MSE" 3 mbWitMatcher mbZeroLogits
     mbZeroBoxes mbZeroLandmarks mbZeroAnchors () (by decide) (by decide)⟩

end MultiBoxLemmas

section MTCNNLemmas

/-- C7. For inputs of height and width at least 12, `PNet` produces score and
offset maps of spatial size `((H - 12) / 2 + 1) x ((W - 12) / 2 + 1)` — the
sliding of a 12x12 window with stride 2 — with 2 score channels and 4 offset
channels. -/
theorem PNet.outputShapes_sliding_window (H W : ℕ) (hH : 12 ≤ H) (hW : 12 ≤ W) :
    PNet.outputShapes H W =
      ((2, (H - 12) / 2 + 1, (W - 12) / 2 + 1), (4, (H - 12) / 2 + 1, (W - 12) / 2 + 1)) := by
  have hsize : ∀ n, 12 ≤ n → PNet.featureSize n = (n - 12) / 2 + 1 := by
    intro n hn
    unfold PNet.featureSize convOut
    omega
  unfold PNet.outputShapes
  rw [hsize H hH, hsize W hW]

/-- C7 witness: at the minimal 12x12 input the hypotheses hold and both maps
are 1x1. -/
theorem PNet.outputShapes_sliding_window_witness :
    (12 ≤ 12 ∧ 12 ≤ 12) ∧
    PNet.outputShapes 12 12 =
      ((2, (12 - 12) / 2 + 1, (12 - 12) / 2 + 1), (4, (12 - 12) / 2 + 1, (12 - 12) / 2 + 1)) :=
  ⟨⟨le_refl 12, le_refl 12⟩, PNet.outputShapes_sliding_window 12 12 (le_refl 12) (le_refl 12)⟩

lemma softmax_prob {C : ℕ} (hC : 0 < C) (v : Fin C → ℝ) :
    (∀ i, 0 ≤ softmax v i ∧ softmax v i ≤ 1) ∧ (∑ i, softmax v i) = 1 := by
  have hne : Nonempty (Fin C) := ⟨⟨0, hC⟩⟩
  have hsum : 0 < ∑ j, Real.exp (v j) :=
    Finset.sum_pos (fun j _ => Real.exp_pos _) Finset.univ_nonempty
  unfold softmax
  constructor
  · intro i
    constructor
    · exact div_nonneg (Real.exp_pos _).le hsum.le
    · rw [div_le_one hsum]
      exact Finset.single_le_sum (fun j _ => (Real.exp_pos (v j)).le) (Finset.mem_univ i)
  · rw [← Finset.sum_div]
    exact div_self hsum.ne'

/-- C8. For each of `PNet`, `RNet` and `ONet` in inference mode
(`is_train = false`), every returned score vector over the 2 classes is a
probability distribution (entries in `[0, 1]` summing to 1), softmax being
applied; with `is_train = true` the raw score logits are returned unchanged. -/
theorem mtcnn_scores_prob_dist {α : Type} (raw : α → Fin 2 → ℝ) (x : α) :
    ((∀ i, 0 ≤ PNet.scores raw false x i ∧ PNet.scores raw false x i ≤ 1) ∧
      (∑ i, PNet.scores raw false x i) = 1 ∧ PNet.scores raw true x = raw x) ∧
    ((∀ i, 0 ≤ RNet.scores raw false x i ∧ RNet.scores raw false x i ≤ 1) ∧
      (∑ i, RNet.scores raw false x i) = 1 ∧ RNet.scores raw true x = raw x) ∧
    ((∀ i, 0 ≤ ONet.scores raw false x i ∧ ONet.scores raw false x i ≤ 1) ∧
      (∑ i, ONet.scores raw false x i) = 1 ∧ ONet.scores raw true x = raw x) := by
  have hp := softmax_prob (by norm_num : 0 < 2) (raw x)
  refine ⟨⟨?_, ?_, ?_⟩, ⟨?_, ?_, ?_⟩, ⟨?_, ?_, ?_⟩⟩
  · simpa [PNet.scores] using hp.1
  · simpa [PNet.scores] using hp.2
  · simp [PNet.scores]
  · simpa [RNet.scores] using hp.1
  · simpa [RNet.scores] using hp.2
  · simp [RNet.scores]
  · simpa [ONet.scores] using hp.1
  · simpa [ONet.scores] using hp.2
  · simp [ONet.scores]

end MTCNNLemmas

section AnchorLemmas

lemma list_sum_map_const {α : Type*} (l : List α) (c : ℕ) :
    (l.map (fun _ => c)).sum = l.length * c := by
  induction l with
  | nil => simp
  | cons a l ih =>
    simp only [List.map_cons, List.sum_cons, List.length_cons, ih]
    ring

lemma flatMap_range_const_length {β : Type*} (n : ℕ) (f : ℕ → List β) (c : ℕ)
    (hf : ∀ i, i < n → (f i).length = c) :
    ((List.range n).flatMap f).length = n * c := by
  rw [List.length_flatMap]
  have hmap : List.map (List.length ∘ f) (List.range n) =
      List.map (fun _ => c) (List.range n) := by
    apply List.map_congr_left
    intro i hi
    simp only [Function.comp_apply]
    exact hf i (List.mem_range.mp hi)
  rw [hmap, list_sum_map_const, List.length_range]

lemma AnchorGenerator.levelAnchors_length (H W step : ℕ) (ms : List ℚ) :
    (AnchorGenerator.levelAnchors H W step ms).length =
      Nat.ceil ((H : ℚ) / step) * Nat.ceil ((W : ℚ) / step) * ms.length := by
  unfold AnchorGenerator.levelAnchors
  rw [flatMap_range_const_length _ _ (Nat.ceil ((W : ℚ) / step) * ms.length)
      (fun i _ => flatMap_range_const_length _ _ ms.length (fun j _ => by simp))]
  ring

lemma AnchorGenerator.clamp01_mem (x : ℚ) :
    0 ≤ AnchorGenerator.clamp01 x ∧ AnchorGenerator.clamp01 x ≤ 1 :=
  ⟨le_max_left 0 _, max_le (by norm_num) (min_le_left 1 x)⟩

/-- C9. `AnchorGenerator.generate_anchors` returns exactly
`Σ_k ceil(H / step_k) * ceil(W / step_k) * len(min_sizes[k])` anchors; with
`clip` enabled every coordinate of every anchor lies in `[0, 1]`; without
`clip`, every anchor is the 4-tuple
`(center_x, center_y, width, height)` of some feature-map cell and anchor
size, normalized by the image dimensions. -/
theorem AnchorGenerator.generate_anchors_spec (cfg : AnchorCfg)
    (hlen : cfg.min_sizes.length = cfg.steps.length)
    (hsteps : ∀ s ∈ cfg.steps, 0 < s) :
    (AnchorGenerator.generate_anchors cfg).length =
      ((cfg.steps.zip cfg.min_sizes).map fun sk =>
        Nat.ceil ((cfg.image_size.1 : ℚ) / sk.1) *
          Nat.ceil ((cfg.image_size.2 : ℚ) / sk.1) * sk.2.length).sum ∧
    (cfg.clip = true → ∀ t ∈ AnchorGenerator.generate_anchors cfg,
      (0 ≤ t.1 ∧ t.1 ≤ 1) ∧ (0 ≤ t.2.1 ∧ t.2.1 ≤ 1) ∧
      (0 ≤ t.2.2.1 ∧ t.2.2.1 ≤ 1) ∧ (0 ≤ t.2.2.2 ∧ t.2.2.2 ≤ 1)) ∧
    (cfg.clip = false → ∀ t ∈ AnchorGenerator.generate_anchors cfg,
      ∃ step ms i j m, (step, ms) ∈ cfg.steps.zip cfg.min_sizes ∧ m ∈ ms ∧
        i < Nat.ceil ((cfg.image_size.1 : ℚ) / step) ∧
        j < Nat.ceil ((cfg.image_size.2 : ℚ) / step) ∧
        t = (((j : ℚ) + 1/2) * step / cfg.image_size.2,
             ((i : ℚ) + 1/2) * step / cfg.image_size.1,
             m / cfg.image_size.2, m / cfg.image_size.1)) := by
  refine ⟨?_, ?_, ?_⟩
  · have hbase : ((cfg.steps.zip cfg.min_sizes).flatMap fun sk =>
        AnchorGenerator.levelAnchors cfg.image_size.1 cfg.image_size.2 sk.1 sk.2).length =
        ((cfg.steps.zip cfg.min_sizes).map fun sk =>
          Nat.ceil ((cfg.image_size.1 : ℚ) / sk.1) *
            Nat.ceil ((cfg.image_size.2 : ℚ) / sk.1) * sk.2.length).sum := by
      rw [List.length_flatMap]
      congr 1
      apply List.map_congr_left
      intro sk _
      simp only [Function.comp_apply]
      exact AnchorGenerator.levelAnchors_length _ _ _ _
    simp only [AnchorGenerator.generate_anchors]
    by_cases hc : cfg.clip
    · rw [if_pos hc, List.length_map]
      exact hbase
    · rw [if_neg hc]
      exact hbase
  · intro hc t ht
    simp only [AnchorGenerator.generate_anchors, if_pos hc] at ht
    obtain ⟨y, _, rfl⟩ := List.mem_map.mp ht
    exact ⟨AnchorGenerator.clamp01_mem _, AnchorGenerator.clamp01_mem _,
      AnchorGenerator.clamp01_mem _, AnchorGenerator.clamp01_mem _⟩
  · intro hc t ht
    simp only [AnchorGenerator.generate_anchors, hc, if_false] at ht
    obtain ⟨sk, hsk, ht2⟩ := List.mem_flatMap.mp ht
    simp only [AnchorGenerator.levelAnchors, List.mem_flatMap, List.mem_map,
      List.mem_range] at ht2
    obtain ⟨i, hi, j, hj, m, hm, rfl⟩ := ht2
    exact ⟨sk.1, sk.2, i, j, m, by simpa using hsk, hm, hi, hj, rfl⟩

/-- C9 witness: the hypotheses and conclusion of
`AnchorGenerator.generate_anchors_spec` at a concrete two-level configuration
with clipping enabled. -/
theorem AnchorGenerator.generate_anchors_spec_witness :
    (anchorWitCfg.min_sizes.length = anchorWitCfg.steps.length ∧
      ∀ s ∈ anchorWitCfg.steps, 0 < s) ∧
    ((AnchorGenerator.generate_anchors anchorWitCfg).length =
      ((anchorWitCfg.steps.zip anchorWitCfg.min_sizes).map fun sk =>
        Nat.ceil ((anchorWitCfg.image_size.1 : ℚ) / sk.1) *
          Nat.ceil ((anchorWitCfg.image_size.2 : ℚ) / sk.1) * sk.2.length).sum ∧
    (anchorWitCfg.clip = true → ∀ t ∈ AnchorGenerator.generate_anchors anchorWitCfg,
      (0 ≤ t.1 ∧ t.1 ≤ 1) ∧ (0 ≤ t.2.1 ∧ t.2.1 ≤ 1) ∧
      (0 ≤ t.2.2.1 ∧ t.2.2.1 ≤ 1) ∧ (0 ≤ t.2.2.2 ∧ t.2.2.2 ≤ 1)) ∧
    (anchorWitCfg.clip = false → ∀ t ∈ AnchorGenerator.generate_anchors anchorWitCfg,
      ∃ step ms i j m, (step, ms) ∈ anchorWitCfg.steps.zip anchorWitCfg.min_sizes ∧ m ∈ ms ∧
        i < Nat.ceil ((anchorWitCfg.image_size.1 : ℚ) / step) ∧
        j < Nat.ceil ((anchorWitCfg.image_size.2 : ℚ) / step) ∧
        t = (((j : ℚ) + 1/2) * step / anchorWitCfg.image_size.2,
             ((i : ℚ) + 1/2) * step / anchorWitCfg.image_size.1,
             m / anchorWitCfg.image_size.2, m / anchorWitCfg.image_size.1))) :=
  ⟨⟨rfl, by decide⟩,
   AnchorGenerator.generate_anchors_spec anchorWitCfg rfl (by decide)⟩

end AnchorLemmas
